import Mathlib

/-!
Verification of the graph-optimization core of `optimize_graph.py`.

The Python program manipulates graphs represented as dictionaries mapping a
node identifier to a dictionary of outgoing-neighbor identifier to edge
weight.  We embed such a dictionary as an association list whose order of
entries mirrors the insertion order of the Python `dict`; keys are embedded
as `Nat` (the Python code uses string-encoded integers, the string encoding
being irrelevant to all properties considered here) and weights as `ℚ`
(the Python floats only ever enter exact comparisons and arithmetic in the
verified fragments).  Fallible operations — Python expressions that can
raise (`max` over an empty sequence, `KeyError` on dictionary indexing) —
are embedded as `Option`-valued functions, `none` meaning an exception.
Calls to the process-wide random generator are embedded as explicit choice
parameters: `random.choices` over a list of candidates with everywhere
positive selection weights may return any index, which we model by an
arbitrary `Nat` parameter taken modulo the number of candidates.
-/

namespace BogoDB

/-- Inner dictionary of a node: outgoing target ↦ edge weight. -/
abbrev Edges := List (Nat × ℚ)

/-- A graph: node ↦ its outgoing-edge dictionary, in insertion order. -/
abbrev Graph := List (Nat × Edges)

/-- Dictionary lookup (`d[k]` / `d.get(k)`): value at the first entry with key `k`. -/
def dlookup {α : Type} : Nat → List (Nat × α) → Option α
  | _, [] => none
  | k, (k', v) :: d => if k' = k then some v else dlookup k d

/-- Dictionary key-membership test (`k in d`). -/
def hasKey {α : Type} : Nat → List (Nat × α) → Bool
  | _, [] => false
  | k, (k', _) :: d => k' = k || hasKey k d

/-- Dictionary deletion (`del d[k]`): drop the entries with key `k`, keeping order. -/
def dErase {α : Type} : Nat → List (Nat × α) → List (Nat × α)
  | _, [] => []
  | k, (k', v) :: d => if k' = k then dErase k d else (k', v) :: dErase k d

/-- Replace the value stored at key `k`, keeping the entry position. -/
def dUpdate {α : Type} (k : Nat) (v : α) : List (Nat × α) → List (Nat × α)
  | [] => []
  | (k', v') :: d => if k' = k then (k, v) :: dUpdate k v d else (k', v') :: dUpdate k v d

/-- Dictionary assignment (`d[k] = v`): update in place when the key is
present, append a fresh entry otherwise — exactly the Python `dict` order
semantics. -/
def dInsert {α : Type} (k : Nat) (v : α) (d : List (Nat × α)) : List (Nat × α) :=
  if hasKey k d then dUpdate k v d else d ++ [(k, v)]

/-- The key sequence of a dictionary (`list(d.keys())`). -/
def keysOf {α : Type} (d : List (Nat × α)) : List Nat := d.map Prod.fst

/-- `(s, t)` is an edge of the graph: some entry for node `s` lists target `t`. -/
def memEdge (g : Graph) (s t : Nat) : Bool :=
  g.any fun p => p.1 == s && p.2.any fun q => q.1 == t

/-- `(s, t)` is an edge of the graph carrying weight `w`. -/
def hasEdgeW (g : Graph) (s t : Nat) (w : ℚ) : Bool :=
  g.any fun p => p.1 == s && p.2.any fun q => q.1 == t && q.2 == w

/-- `sum(len(edges) for edges in graph.values())`. -/
def totalEdges (g : Graph) : Nat := (g.map fun p => p.2.length).sum

/-- `max(len(edges) for edges in graph.values())`, as a fold; only consulted
on non-empty graphs, where it agrees with the Python `max`. -/
def maxNodeEdges (g : Graph) : Nat := (g.map fun p => p.2.length).foldl Nat.max 0

/-- Embedding of `verify_constraints(graph, max_edges_per_node, max_total_edges)`.
The module-level constant `NUM_NODES` read by the Python function is passed
explicitly as `numNodes`.  The checks run in source order: total edge count,
then the per-node maximum (where `max` over the empty value sequence of an
empty dictionary raises `ValueError`, embedded as `none`), then the node
count, then the weight-range scan. -/
def verify_constraints (numNodes : Nat) (g : Graph) (maxPer maxTotal : Nat) : Option Bool :=
  if totalEdges g > maxTotal then some false
  else if g.isEmpty then none
  else if maxNodeEdges g > maxPer then some false
  else if g.length ≠ numNodes then some false
  else if g.any (fun p => p.2.any fun q => decide (q.2 ≤ 0) || decide (10 < q.2)) then some false
  else some true

/-- Removal-candidate collection of `swap_single_edge`: for every node whose
current out-degree exceeds one, every outgoing edge is a removal candidate.
Listing a candidate also reads `edge_weight_dict[(node, target)]`, which
raises `KeyError` (embedded as `none`) when `(node, target)` is not an edge
of the initial graph — `edge_weight_dict` is keyed by exactly the edges of
`initial_edges`.  The numeric selection weights themselves are irrelevant
here: they are all positive, so the weighted draw can pick any index. -/
def removalCandidatesGo (init : Graph) : Graph → Option (List (Nat × Nat))
  | [] => some []
  | (node, es) :: rest =>
    if es.length > 1 then
      if es.all (fun q => memEdge init node q.1) then
        (removalCandidatesGo init rest).map fun l => (es.map fun q => (node, q.1)) ++ l
      else none
    else removalCandidatesGo init rest

/-- Insertion-candidate collection of `swap_single_edge`: for every node of
the initial graph, indexing `new_graph[node]` raises `KeyError` (`none`)
when the node is absent from the current graph; nodes already at the
per-node ceiling are skipped; otherwise every initial edge of that node
absent from the current graph is a candidate, carrying its initial weight. -/
def insertionCandidatesGo (maxPer : Nat) (g : Graph) : Graph → Option (List (Nat × Nat × ℚ))
  | [] => some []
  | (node, es) :: rest =>
    match dlookup node g with
    | none => none
    | some cur =>
      match insertionCandidatesGo maxPer g rest with
      | none => none
      | some l =>
        if cur.length ≥ maxPer then some l
        else
          some ((es.filterMap fun q =>
            if hasKey q.1 cur then none else some (node, q.1, q.2)) ++ l)

/-- The insertion phase of `swap_single_edge`, applied to the graph `g1`
left by the removal phase: collect the addable initial edges (raising on a
missing node, embedded as `none`), return `g1` unchanged when none exists,
otherwise insert one of them — chosen by the weighted draw embedded as
`c2` — with its original weight. -/
def insertPhase (init : Graph) (maxPer c2 : Nat) (g1 : Graph) : Option Graph :=
  match insertionCandidatesGo maxPer g1 init with
  | none => none
  | some possible =>
    if possible.isEmpty then some g1
    else
      let c := possible.getD (c2 % possible.length) (0, 0, 0)
      some (dInsert c.1 (dInsert c.2.1 c.2.2 ((dlookup c.1 g1).getD [])) g1)

/-- Embedding of the inner function `swap_single_edge(graph)`.  The closure
variables `initial_edges` and `max_edges_per_node` are passed explicitly;
`c1` and `c2` embed the two `random.choices` draws (any index is possible,
the drawn index being `c·` modulo the number of candidates).  The function
copies the graph, and when no node has out-degree above one returns the
copy unchanged; otherwise it removes one removable edge and runs the
insertion phase. -/
def swap_single_edge (init : Graph) (maxPer : Nat) (c1 c2 : Nat) (g : Graph) : Option Graph :=
  match removalCandidatesGo init g with
  | none => none
  | some removable =>
    if removable.isEmpty then some g
    else
      let chosen := removable.getD (c1 % removable.length) (0, 0)
      insertPhase init maxPer c2
        (dInsert chosen.1 (dErase chosen.2 ((dlookup chosen.1 g).getD [])) g)

/-- The swap loop of `modify_graph`: perform the given number of single
swaps, re-running `verify_constraints` after each one; on a failed check
return the original input graph `gOrig` unchanged; a raised exception
(`none`) propagates.  `cs` is the stream of random-choice pairs consumed by
the successive swaps. -/
def modify_loop (numNodes : Nat) (init : Graph) (maxPer maxTotal : Nat) (gOrig : Graph) :
    Nat → List (Nat × Nat) → Graph → Option Graph
  | 0, _, gNew => some gNew
  | k + 1, cs, gNew =>
    let c := cs.headD (0, 0)
    match swap_single_edge init maxPer c.1 c.2 gNew with
    | none => none
    | some g2 =>
      match verify_constraints numNodes g2 maxPer maxTotal with
      | none => none
      | some false => some gOrig
      | some true => modify_loop numNodes init maxPer maxTotal gOrig k cs.tail g2

/-- Embedding of the inner function `modify_graph(graph)`: copy the graph
(copying is the identity on immutable values) and run `numSwaps` swaps with
per-swap constraint verification and all-or-nothing rollback to the input.
The Python draw `random.randint(10, 50)` for the number of swaps is passed
explicitly as `numSwaps`. -/
def modify_graph (numNodes : Nat) (init : Graph) (maxPer maxTotal : Nat)
    (numSwaps : Nat) (cs : List (Nat × Nat)) (g : Graph) : Option Graph :=
  modify_loop numNodes init maxPer maxTotal g numSwaps cs g

/-- One record of the `detailed_results` sequence produced by the external
query-simulator oracle (`run_queries`), as far as `get_metrics` inspects it:
the two success flags read by `r.get("success", False)` and
`r.get("is_success", False)`, and the `median_path_length` field, where
`none` stands for a field that is missing or holds `float("inf")` — the two
cases `get_metrics` treats identically. -/
structure QueryDetail where
  success : Bool
  is_success : Bool
  median_path_length : Option ℚ
deriving DecidableEq

/-- The success test applied to one record:
`r.get("success", False) or r.get("is_success", False)`. -/
def isSucc (r : QueryDetail) : Bool := r.success || r.is_success

/-- The `lengths` list of `get_metrics`: the finite path lengths of the
successful records, in order. -/
def successLengths (details : List QueryDetail) : List ℚ :=
  details.filterMap fun r => if isSucc r then r.median_path_length else none

/-- Embedding of `statistics.median`: sort ascending; the middle element for
odd length, the mean of the two middle elements for even length; `none` for
the empty list (where the Python function would raise — `get_metrics` never
calls it on an empty list, returning `inf` instead, so `none` uniformly
stands for the absent median `∞`). -/
def pymedian (l : List ℚ) : Option ℚ :=
  match l with
  | [] => none
  | _ :: _ =>
    let s := l.insertionSort (· ≤ ·)
    let n := l.length
    if n % 2 = 1 then s.get? (n / 2)
    else
      match s.get? (n / 2 - 1), s.get? (n / 2) with
      | some a, some b => some ((a + b) / 2)
      | _, _ => none

/-- Embedding of the inner function `get_metrics(graph, queries)` as a
function of the oracle's output: the graph and queries only reach the
external simulator (`BogoDB(graph)` / `run_queries`), an opaque oracle
whose reported `detailed_results` sequence is the `details` argument here.
Returns the success rate and the median (`none` = `∞`) of the finite path
lengths of successful records. -/
def get_metrics (details : List QueryDetail) : ℚ × Option ℚ :=
  let successCount := (details.filter fun r => isSucc r).length
  let rate : ℚ := if details.isEmpty then 0 else (successCount : ℚ) / (details.length : ℚ)
  (rate, pymedian (successLengths details))

/-- Embedding of the scoring rules of the inner function
`calculate_score(graph, results)`, as a function of the candidate metrics
the Python code obtains from `get_metrics(graph, queries)` and of the
enclosing baseline median `initial_median`; `none` again stands for an
infinite median.  `np.log1p x = Real.log (1 + x)`. -/
noncomputable def calculate_score (optimizedRate : ℚ) (optimizedMedian initialMedian : Option ℚ) : ℝ :=
  if optimizedRate = 0 then 0
  else
    match initialMedian, optimizedMedian with
    | some im, some om => (optimizedRate : ℝ) * (1 + Real.log (1 + (im : ℝ) / (om : ℝ)))
    | _, _ => (optimizedRate : ℝ)

/-- The search state of the simulated-annealing loop of `optimize_graph`. -/
structure SAState where
  current : Graph
  currentScore : ℝ
  best : Graph
  bestScore : ℝ
  temperature : ℝ

/-- One iteration of the annealing loop of `optimize_graph`, as a function
of the iteration's nondeterministic inputs: the candidate graph produced by
`modify_graph`, its score `candScore` as reported by `calculate_score` over
the oracle's walk outcomes, and the acceptance draw `u = random.random()`.
When the candidate fails `verify_constraints` the iteration `continue`s,
leaving the whole state — including the temperature — untouched; a verifier
exception propagates (`none`).  Otherwise the Metropolis rule accepts when
`u < acceptProb`, the best solution is updated only on an accepting step
that strictly improves `bestScore`, and the temperature is cooled. -/
noncomputable def anneal_step (numNodes maxPer maxTotal : Nat) (coolingRate : ℝ)
    (candidate : Graph) (candScore u : ℝ) (st : SAState) : Option SAState :=
  match verify_constraints numNodes candidate maxPer maxTotal with
  | none => none
  | some false => some st
  | some true =>
    let delta := candScore - st.currentScore
    let acceptProb := if 0 < delta then (1 : ℝ) else Real.exp (delta / st.temperature)
    if u < acceptProb then
      if st.bestScore < candScore then
        some ⟨candidate, candScore, candidate, candScore, st.temperature * coolingRate⟩
      else
        some ⟨candidate, candScore, st.best, st.bestScore, st.temperature * coolingRate⟩
    else
      some ⟨st.current, st.currentScore, st.best, st.bestScore, st.temperature * coolingRate⟩

/-- The final stage of `optimize_graph` together with the `__main__` driver:
the best graph found is re-checked with `verify_constraints`; on failure a
warning is printed (the returned flag is `true`) and the graph is still
returned and saved by the caller; a verifier exception propagates. -/
def final_verification (numNodes maxPer maxTotal : Nat) (best : Graph) : Option (Graph × Bool) :=
  match verify_constraints numNodes best maxPer maxTotal with
  | none => none
  | some ok => some (best, !ok)

/-! ### Concrete instances used by witnesses and counterexamples -/

/-- Concrete valid two-node graph. -/
def gW : Graph := [(0, [(1, (5 : ℚ))]), (1, [(0, 5)])]

/-- Concrete counterexample graph for C1: node ids `{0, 5}`, node count 2. -/
def gC1 : Graph := [(0, []), (5, [])]

/-- Concrete candidate graph failing the verifier (two nodes, `numNodes = 1`). -/
def candBad : Graph := [(0, []), (1, [])]

/-- Concrete annealing state for the C7/C9 witnesses. -/
def stW : SAState := ⟨gW, 0, gW, 0, 1⟩

/-- Concrete record list for the C6 witness: one successful query of
length 2, one failed query. -/
def detailsW : List QueryDetail := [⟨true, false, some 2⟩, ⟨false, false, none⟩]

/-- Concrete initial graph of the C2 counterexample: one node, no edges. -/
def initC2 : Graph := [(0, [])]

/-- The valid input graph of the C2 counterexample: one node whose two
edges are absent from `initC2`. -/
def gC2 : Graph := [(0, [(1, (1 : ℚ)), (2, 1)])]

/-! ### Basic lemmas -/

lemma init_le_foldl_max (l : List Nat) (a : Nat) : a ≤ l.foldl Nat.max a := by
  induction l generalizing a with
  | nil => exact Nat.le_refl a
  | cons b l ih => exact Nat.le_trans (Nat.le_max_left a b) (ih (Nat.max a b))

lemma mem_le_foldl_max (l : List Nat) (a : Nat) : ∀ x ∈ l, x ≤ l.foldl Nat.max a := by
  induction l generalizing a with
  | nil => intro x hx; cases hx
  | cons b l ih =>
    intro x hx
    rcases List.mem_cons.mp hx with rfl | hx
    · exact Nat.le_trans (Nat.le_max_right a x) (init_le_foldl_max l (Nat.max a x))
    · exact ih (Nat.max a b) x hx

lemma mem_le_maxNodeEdges (g : Graph) : ∀ p ∈ g, p.2.length ≤ maxNodeEdges g := by
  intro p hp
  exact mem_le_foldl_max _ 0 _ (List.mem_map_of_mem (fun p => p.2.length) hp)

/-- The verifier raises (returns `none`) exactly on the empty dictionary. -/
lemma verify_nil (numNodes maxPer maxTotal : Nat) :
    verify_constraints numNodes [] maxPer maxTotal = none := by
  unfold verify_constraints
  simp [totalEdges]

lemma verify_isSome (numNodes : Nat) (g : Graph) (maxPer maxTotal : Nat) (hg : g ≠ []) :
    (verify_constraints numNodes g maxPer maxTotal).isSome := by
  unfold verify_constraints
  have : g.isEmpty = false := by simp [List.isEmpty_iff, hg]
  split_ifs <;> simp_all

lemma ne_nil_of_verify_true {numNodes : Nat} {g : Graph} {maxPer maxTotal : Nat}
    (h : verify_constraints numNodes g maxPer maxTotal = some true) : g ≠ [] := by
  rintro rfl
  rw [verify_nil] at h
  cases h

/-! ### C1, C10: the constraint verifier -/

/-- Claim C1 (amended): every graph accepted by `verify_constraints` has
total edge count at most `maxTotal`, every node's out-degree at most
`maxPer`, exactly `numNodes` node entries (the node count is checked — not
the node-id set), and every edge weight `w` with `0 < w ≤ 10`. -/
theorem C1_verify_accepted_bounds (numNodes : Nat) (g : Graph) (maxPer maxTotal : Nat)
    (h : verify_constraints numNodes g maxPer maxTotal = some true) :
    totalEdges g ≤ maxTotal ∧ (∀ p ∈ g, p.2.length ≤ maxPer) ∧ g.length = numNodes ∧
      ∀ p ∈ g, ∀ q ∈ p.2, 0 < q.2 ∧ q.2 ≤ 10 := by
  unfold verify_constraints at h
  split_ifs at h with h1 h2 h3 h4 h5
  all_goals try cases h
  simp only [not_lt, ne_eq, not_not] at h1 h3 h4
  refine ⟨h1, ?_, h4, ?_⟩
  · intro p hp
    exact Nat.le_trans (mem_le_maxNodeEdges g p hp) h3
  · simp only [List.any_eq_true, not_exists, not_and, Bool.or_eq_true, decide_eq_true_eq,
      not_or, not_lt, not_le] at h5
    intro p hp q hq
    have hq' := h5 p hp q hq
    exact ⟨lt_of_not_le (fun hle => absurd hle (by simpa using hq'.1)), hq'.2⟩

theorem C1_verify_accepted_bounds_witness :
    totalEdges gW ≤ 2 ∧ (∀ p ∈ gW, p.2.length ≤ 1) ∧ gW.length = 2 ∧
      ∀ p ∈ gW, ∀ q ∈ p.2, 0 < q.2 ∧ q.2 ≤ 10 :=
  C1_verify_accepted_bounds 2 gW 1 2 (by decide)

/-- Claim C1, as stated, is false: `verify_constraints` checks the node
*count*, not the node-id set, so a graph whose node ids are `{0, 5}` is
accepted with `numNodes = 2` although its node set is not `[0, 2)`. -/
theorem C1_counterexample :
    verify_constraints 2 gC1 1 1 = some true ∧ ¬ (∀ k, k ∈ keysOf gC1 ↔ k < 2) := by
  constructor
  · decide
  · intro h
    have h5 : (5 : Nat) ∈ keysOf gC1 := by decide
    exact absurd ((h 5).mp h5) (by decide)

/-- Claim C10: `verify_constraints` is not total — on the empty graph (with
the non-negative total-edge ceiling embedded by `maxTotal : Nat`, so that
the first check passes) the Python `max` over the empty sequence of
out-degrees raises `ValueError` before the node-count check is reached;
the embedded verifier returns `none` rather than `some false`. -/
theorem C10_verify_empty_raises (numNodes maxPer maxTotal : Nat) :
    verify_constraints numNodes [] maxPer maxTotal = none := by
  unfold verify_constraints
  simp [totalEdges]

/-! ### C7, C9: the annealing loop -/

lemma anneal_step_verify_none {numNodes maxPer maxTotal : Nat} {coolingRate : ℝ}
    {candidate : Graph} {sc u : ℝ} {st : SAState}
    (h : verify_constraints numNodes candidate maxPer maxTotal = none) :
    anneal_step numNodes maxPer maxTotal coolingRate candidate sc u st = none := by
  unfold anneal_step; rw [h]

lemma anneal_step_verify_false {numNodes maxPer maxTotal : Nat} {coolingRate : ℝ}
    {candidate : Graph} {sc u : ℝ} {st : SAState}
    (h : verify_constraints numNodes candidate maxPer maxTotal = some false) :
    anneal_step numNodes maxPer maxTotal coolingRate candidate sc u st = some st := by
  unfold anneal_step; rw [h]

lemma anneal_step_verify_true {numNodes maxPer maxTotal : Nat} {coolingRate : ℝ}
    {candidate : Graph} {sc u : ℝ} {st : SAState}
    (h : verify_constraints numNodes candidate maxPer maxTotal = some true) :
    anneal_step numNodes maxPer maxTotal coolingRate candidate sc u st =
      if u < (if 0 < sc - st.currentScore then (1 : ℝ)
              else Real.exp ((sc - st.currentScore) / st.temperature)) then
        if st.bestScore < sc then
          some ⟨candidate, sc, candidate, sc, st.temperature * coolingRate⟩
        else some ⟨candidate, sc, st.best, st.bestScore, st.temperature * coolingRate⟩
      else some ⟨st.current, st.currentScore, st.best, st.bestScore,
                 st.temperature * coolingRate⟩ := by
  unfold anneal_step; rw [h]

/-- Claim C7: whenever an annealing iteration completes, the best score
after the iteration is at least the best score before it, for any candidate
graph, any reported candidate score and any acceptance draw. -/
theorem C7_bestScore_monotone (numNodes maxPer maxTotal : Nat) (coolingRate : ℝ)
    (candidate : Graph) (sc u : ℝ) (st st' : SAState)
    (h : anneal_step numNodes maxPer maxTotal coolingRate candidate sc u st = some st') :
    st.bestScore ≤ st'.bestScore := by
  rcases hv : verify_constraints numNodes candidate maxPer maxTotal with _ | b
  · rw [anneal_step_verify_none hv] at h; cases h
  · cases b
    · rw [anneal_step_verify_false hv] at h
      cases h; exact le_refl _
    · rw [anneal_step_verify_true hv] at h
      by_cases hacc : u < (if 0 < sc - st.currentScore then (1 : ℝ)
          else Real.exp ((sc - st.currentScore) / st.temperature))
      · rw [if_pos hacc] at h
        by_cases hb : st.bestScore < sc
        · rw [if_pos hb] at h; cases h; exact le_of_lt hb
        · rw [if_neg hb] at h; cases h; exact le_refl _
      · rw [if_neg hacc] at h; cases h; exact le_refl _

theorem C7_bestScore_monotone_witness : stW.bestScore ≤ stW.bestScore :=
  C7_bestScore_monotone 1 1 1 1 candBad 0 0 stW stW
    (anneal_step_verify_false (by decide))

/-- Claim C9: an annealing iteration whose candidate fails the constraint
verifier is a no-op on the whole search state: current graph and score,
best graph and score, and the temperature are returned exactly unchanged. -/
theorem C9_invalid_candidate_noop (numNodes maxPer maxTotal : Nat) (coolingRate : ℝ)
    (candidate : Graph) (sc u : ℝ) (st : SAState)
    (h : verify_constraints numNodes candidate maxPer maxTotal = some false) :
    anneal_step numNodes maxPer maxTotal coolingRate candidate sc u st = some st :=
  anneal_step_verify_false h

theorem C9_invalid_candidate_noop_witness :
    anneal_step 1 1 1 (1 : ℝ) candBad 0 0 stW = some stW :=
  C9_invalid_candidate_noop 1 1 1 1 candBad 0 0 stW (by decide)

/-! ### C8: final re-verification -/

/-- Claim C8: the final stage of `optimize_graph` re-verifies the best
graph; when it completes, the graph returned (and subsequently written by
the driver) is exactly the best graph, and the explicit warning is emitted
precisely when the verifier rejects that graph — the graph is never written
silently on a failed check. -/
theorem C8_final_reverification (numNodes maxPer maxTotal : Nat) (g : Graph) (p : Graph × Bool)
    (h : final_verification numNodes maxPer maxTotal g = some p) :
    p.1 = g ∧ (p.2 = true ↔ verify_constraints numNodes g maxPer maxTotal = some false) := by
  unfold final_verification at h
  rcases hv : verify_constraints numNodes g maxPer maxTotal with _ | b
  · rw [hv] at h; cases h
  · rw [hv] at h
    cases h
    cases b <;> simp

theorem C8_final_reverification_witness :
    (candBad, true).1 = candBad ∧
      ((candBad, true).2 = true ↔ verify_constraints 1 candBad 1 1 = some false) :=
  C8_final_reverification 1 1 1 candBad (candBad, true) (by decide)

/-! ### C3, C5: the scoring function -/

/-- The path-length multiplier is at least one for positive finite medians. -/
lemma one_le_score_multiplier {bm cm : ℚ} (hbm : 0 < bm) (hcm : 0 < cm) :
    (1 : ℝ) ≤ 1 + Real.log (1 + (bm : ℝ) / (cm : ℝ)) := by
  have hq : (0 : ℝ) ≤ (bm : ℝ) / (cm : ℝ) := by positivity
  have := Real.log_nonneg (by linarith : (1 : ℝ) ≤ 1 + (bm : ℝ) / (cm : ℝ))
  linarith

/-- The score is never negative on metrics from the metrics domain
(rate ≥ 0, positive finite medians). -/
lemma calculate_score_nonneg {r : ℚ} {c b : Option ℚ} (hr : 0 ≤ r)
    (hc : ∀ x ∈ c, 0 < x) (hb : ∀ x ∈ b, 0 < x) : 0 ≤ calculate_score r c b := by
  by_cases h0 : r = 0
  · simp [calculate_score, h0]
  · have hr' : (0 : ℝ) ≤ (r : ℝ) := by exact_mod_cast hr
    simp only [calculate_score, if_neg h0]
    cases b with
    | none => cases c <;> exact hr'
    | some bm =>
      cases c with
      | none => exact hr'
      | some cm =>
        have h1 := one_le_score_multiplier (hb bm rfl) (hc cm rfl)
        exact mul_nonneg hr' (by linarith)

/-- Claim C3: the score follows exactly the three ordered rules of the
source — zero success rate gives score `0`; otherwise an infinite baseline
or candidate median gives the success rate alone; otherwise the rate times
`1 + ln(1 + baselineMedian / candidateMedian)` — and on the spec's example
(baseline median 10, candidate median 5, rate 0.8) the score is
`0.8 * (1 + ln 3)`. -/
theorem C3_score_rules :
    (∀ (c b : Option ℚ), calculate_score 0 c b = 0) ∧
    (∀ (r : ℚ) (c : Option ℚ), r ≠ 0 → calculate_score r c none = (r : ℝ)) ∧
    (∀ (r b : ℚ), r ≠ 0 → calculate_score r none (some b) = (r : ℝ)) ∧
    (∀ (r cm bm : ℚ), r ≠ 0 →
      calculate_score r (some cm) (some bm) =
        (r : ℝ) * (1 + Real.log (1 + (bm : ℝ) / (cm : ℝ)))) ∧
    calculate_score (4/5) (some 5) (some 10) = (4/5 : ℝ) * (1 + Real.log 3) := by
  refine ⟨?_, ?_, ?_, ?_, ?_⟩
  · intro c b; simp [calculate_score]
  · intro r c hr; simp only [calculate_score, if_neg hr]
  · intro r b hr; simp only [calculate_score, if_neg hr]
  · intro r cm bm hr; simp only [calculate_score, if_neg hr]
  · simp only [calculate_score, if_neg (by norm_num : (4/5 : ℚ) ≠ 0)]
    norm_num

theorem C3_score_rules_witness : calculate_score (1/2) (some 3) none = ((1/2 : ℚ) : ℝ) :=
  C3_score_rules.2.1 (1/2) (some 3) (by norm_num)

/-- Claim C5: with medians in the metrics domain `ℝ⁺ ∪ {∞}` (`none` = `∞`)
and a non-negative success rate, the score is monotone non-decreasing in
the success rate at fixed medians, and monotone non-decreasing as the
candidate median decreases at fixed rate and finite positive medians. -/
theorem C5_score_monotone :
    (∀ (r1 r2 : ℚ) (c b : Option ℚ), 0 ≤ r1 → r1 ≤ r2 →
      (∀ x ∈ c, 0 < x) → (∀ x ∈ b, 0 < x) →
      calculate_score r1 c b ≤ calculate_score r2 c b) ∧
    (∀ (r bm c1 c2 : ℚ), 0 ≤ r → 0 < bm → 0 < c1 → c1 ≤ c2 →
      calculate_score r (some c2) (some bm) ≤ calculate_score r (some c1) (some bm)) := by
  constructor
  · intro r1 r2 c b hr1 hr12 hc hb
    by_cases h1 : r1 = 0
    · rw [h1, (by simp [calculate_score] : calculate_score 0 c b = 0)]
      exact calculate_score_nonneg (le_trans hr1 hr12) hc hb
    · have h2 : r2 ≠ 0 := by
        intro h; rw [h] at hr12; exact h1 (le_antisymm hr12 hr1)
      have hcast : (r1 : ℝ) ≤ (r2 : ℝ) := by exact_mod_cast hr12
      simp only [calculate_score, if_neg h1, if_neg h2]
      cases b with
      | none => cases c <;> exact hcast
      | some bm =>
        cases c with
        | none => exact hcast
        | some cm =>
          have hm := one_le_score_multiplier (hb bm rfl) (hc cm rfl)
          exact mul_le_mul_of_nonneg_right hcast (by linarith)
  · intro r bm c1 c2 hr hbm hc1 hc12
    by_cases h0 : r = 0
    · simp [calculate_score, h0]
    · simp only [calculate_score, if_neg h0]
      have hc1' : (0 : ℝ) < (c1 : ℝ) := by exact_mod_cast hc1
      have hc2' : (0 : ℝ) < (c2 : ℝ) := lt_of_lt_of_le hc1' (by exact_mod_cast hc12)
      have hbm' : (0 : ℝ) ≤ (bm : ℝ) := by positivity
      have hdiv : (bm : ℝ) / (c2 : ℝ) ≤ (bm : ℝ) / (c1 : ℝ) :=
        div_le_div_of_nonneg_left hbm' hc1' (by exact_mod_cast hc12)
      have hlog := Real.log_le_log (by positivity : (0 : ℝ) < 1 + (bm : ℝ) / (c2 : ℝ))
        (by linarith : 1 + (bm : ℝ) / (c2 : ℝ) ≤ 1 + (bm : ℝ) / (c1 : ℝ))
      exact mul_le_mul_of_nonneg_left (by linarith) (by positivity)
  -- end

theorem C5_score_monotone_witness :
    calculate_score 0 (some 2) (some 1) ≤ calculate_score 0 (some 1) (some 1) :=
  C5_score_monotone.2 0 1 1 2 (le_refl 0) one_pos one_pos one_le_two

/-! ### C6: the metrics evaluator -/

lemma pymedian_isSome (l : List ℚ) (hl : l ≠ []) : (pymedian l).isSome := by
  cases l with
  | nil => exact absurd rfl hl
  | cons a t =>
    have hlen : ((a :: t).insertionSort (· ≤ ·)).length = (a :: t).length :=
      List.length_insertionSort _ _
    have hn : 0 < (a :: t).length := by simp
    have hi2 : (a :: t).length / 2 < ((a :: t).insertionSort (· ≤ ·)).length := by
      rw [hlen]; exact Nat.div_lt_self hn (by norm_num)
    have hi1 : (a :: t).length / 2 - 1 < ((a :: t).insertionSort (· ≤ ·)).length :=
      lt_of_le_of_lt (Nat.sub_le _ _) hi2
    simp only [pymedian]
    by_cases hp : (a :: t).length % 2 = 1
    · rw [if_pos hp, List.get?_eq_getElem?, List.getElem?_eq_getElem hi2]
      rfl
    · rw [if_neg hp]
      simp only [List.get?_eq_getElem?]
      rw [List.getElem?_eq_getElem hi1, List.getElem?_eq_getElem hi2]
      rfl

lemma pymedian_eq_none_iff (l : List ℚ) : pymedian l = none ↔ l = [] := by
  constructor
  · intro h
    by_contra hl
    have hs := pymedian_isSome l hl
    rw [h] at hs; cases hs
  · rintro rfl; rfl

lemma successLengths_append (d1 d2 : List QueryDetail) :
    successLengths (d1 ++ d2) = successLengths d1 ++ successLengths d2 :=
  List.filterMap_append d1 d2 _

/-- Claim C6: `get_metrics` reports the number of successful records over
the total number of records (and `0` on an empty record sequence) as the
success rate; its median is taken over only the successful records with a
finite path length — appending an unsuccessful or infinite-length record
never changes it — and is `∞` (`none`) exactly when no successful finite
record exists. -/
theorem C6_metrics (details : List QueryDetail) (r : QueryDetail) :
    (details = [] → (get_metrics details).1 = 0) ∧
    (details ≠ [] →
      (get_metrics details).1 =
        ((details.countP fun q => isSucc q : Nat) : ℚ) / (details.length : ℚ)) ∧
    (isSucc r = false ∨ r.median_path_length = none →
      (get_metrics (details ++ [r])).2 = (get_metrics details).2) ∧
    ((get_metrics details).2 = none ↔
      ∀ q ∈ details, isSucc q = true → q.median_path_length = none) := by
  refine ⟨?_, ?_, ?_, ?_⟩
  · rintro rfl; rfl
  · intro h
    simp [get_metrics, List.isEmpty_iff, h, List.countP_eq_length_filter]
  · intro h
    show pymedian (successLengths (details ++ [r])) = pymedian (successLengths details)
    rw [successLengths_append]
    have hr : successLengths [r] = [] := by
      rcases h with h | h <;> simp [successLengths, h]
    rw [hr, List.append_nil]
  · show pymedian (successLengths details) = none ↔ _
    rw [pymedian_eq_none_iff, successLengths, List.filterMap_eq_nil_iff]
    constructor
    · intro h q hq hs
      simpa [hs] using h q hq
    · intro h q hq
      by_cases hs : isSucc q
      · simp [hs, h q hq hs]
      · simp [hs]

theorem C6_metrics_witness :
    (get_metrics detailsW).1 =
      ((detailsW.countP fun q => isSucc q : Nat) : ℚ) / (detailsW.length : ℚ) :=
  (C6_metrics detailsW ⟨false, false, none⟩).2.1 (by decide)

/-! ### Dictionary lemmas -/

lemma getD_mem {α : Type} (l : List α) (i : Nat) (d : α) (h : i < l.length) : l.getD i d ∈ l := by
  induction l generalizing i with
  | nil => cases h
  | cons a t ih =>
    cases i with
    | zero => exact List.mem_cons_self _ _
    | succ n => exact List.mem_cons_of_mem _ (ih n (Nat.lt_of_succ_lt_succ h))

lemma hasKey_iff_mem_keysOf {α : Type} (k : Nat) (d : List (Nat × α)) :
    hasKey k d = true ↔ k ∈ keysOf d := by
  induction d with
  | nil => simp [hasKey, keysOf]
  | cons p d ih =>
    cases p with
    | mk k' v =>
      simp only [keysOf] at ih ⊢
      simp only [hasKey, List.map_cons, List.mem_cons, Bool.or_eq_true, decide_eq_true_eq]
      exact or_congr eq_comm ih

lemma hasKey_congr {α β : Type} {d1 : List (Nat × α)} {d2 : List (Nat × β)}
    (h : keysOf d1 = keysOf d2) (k : Nat) : hasKey k d1 = hasKey k d2 := by
  rw [Bool.eq_iff_iff, hasKey_iff_mem_keysOf, hasKey_iff_mem_keysOf, h]

lemma hasKey_of_mem {α : Type} {d : List (Nat × α)} {p : Nat × α} (hp : p ∈ d) :
    hasKey p.1 d = true :=
  (hasKey_iff_mem_keysOf p.1 d).mpr (List.mem_map_of_mem Prod.fst hp)

lemma hasKey_iff_dlookup_isSome {α : Type} (k : Nat) (d : List (Nat × α)) :
    hasKey k d = true ↔ (dlookup k d).isSome := by
  induction d with
  | nil => simp [hasKey, dlookup]
  | cons p d ih =>
    cases p with
    | mk k' v =>
      by_cases hk : k' = k
      · simp [hasKey, dlookup, hk]
      · simp [hasKey, dlookup, hk, ih]

lemma dlookup_mem {α : Type} {k : Nat} {d : List (Nat × α)} {v : α}
    (h : dlookup k d = some v) : (k, v) ∈ d := by
  induction d with
  | nil => cases h
  | cons p d ih =>
    cases p with
    | mk k' v' =>
      by_cases hk : k' = k
      · rw [dlookup, if_pos hk] at h
        cases h
        exact hk ▸ List.mem_cons_self _ _
      · rw [dlookup, if_neg hk] at h
        exact List.mem_cons_of_mem _ (ih h)

lemma mem_dUpdate_elim {α : Type} {k : Nat} {v : α} {d : List (Nat × α)} {x : Nat × α}
    (h : x ∈ dUpdate k v d) : x = (k, v) ∨ (x ∈ d ∧ x.1 ≠ k) := by
  induction d with
  | nil => cases h
  | cons p d ih =>
    cases p with
    | mk k' v' =>
      by_cases hk : k' = k
      · rw [dUpdate, if_pos hk] at h
        rcases List.mem_cons.mp h with rfl | h
        · exact Or.inl rfl
        · rcases ih h with h | ⟨h1, h2⟩
          · exact Or.inl h
          · exact Or.inr ⟨List.mem_cons_of_mem _ h1, h2⟩
      · rw [dUpdate, if_neg hk] at h
        rcases List.mem_cons.mp h with rfl | h
        · exact Or.inr ⟨List.mem_cons_self _ _, hk⟩
        · rcases ih h with h | ⟨h1, h2⟩
          · exact Or.inl h
          · exact Or.inr ⟨List.mem_cons_of_mem _ h1, h2⟩

lemma not_hasKey_imp {α : Type} {k : Nat} {d : List (Nat × α)} (h : hasKey k d = false) :
    ∀ x ∈ d, x.1 ≠ k := by
  intro x hx hk
  rw [← hk] at h
  rw [hasKey_of_mem hx] at h
  cases h

lemma mem_dInsert_elim {α : Type} {k : Nat} {v : α} {d : List (Nat × α)} {x : Nat × α}
    (h : x ∈ dInsert k v d) : x = (k, v) ∨ (x ∈ d ∧ x.1 ≠ k) := by
  unfold dInsert at h
  by_cases hk : hasKey k d
  · rw [if_pos hk] at h
    exact mem_dUpdate_elim h
  · rw [if_neg hk] at h
    rcases List.mem_append.mp h with h | h
    · exact Or.inr ⟨h, not_hasKey_imp (Bool.not_eq_true _ ▸ hk) x h⟩
    · rcases List.mem_singleton.mp h with rfl
      exact Or.inl rfl

lemma mem_dErase_imp {α : Type} {k : Nat} {d : List (Nat × α)} {x : Nat × α}
    (h : x ∈ dErase k d) : x ∈ d := by
  induction d with
  | nil => cases h
  | cons p d ih =>
    cases p with
    | mk k' v' =>
      by_cases hk : k' = k
      · rw [dErase, if_pos hk] at h
        exact List.mem_cons_of_mem _ (ih h)
      · rw [dErase, if_neg hk] at h
        rcases List.mem_cons.mp h with rfl | h
        · exact List.mem_cons_self _ _
        · exact List.mem_cons_of_mem _ (ih h)

lemma keysOf_dUpdate {α : Type} (k : Nat) (v : α) (d : List (Nat × α)) :
    keysOf (dUpdate k v d) = keysOf d := by
  induction d with
  | nil => rfl
  | cons p d ih =>
    cases p with
    | mk k' v' =>
      by_cases hk : k' = k
      · rw [dUpdate, if_pos hk]
        simp [keysOf] at ih ⊢
        exact ⟨hk.symm, ih⟩
      · rw [dUpdate, if_neg hk]
        simp [keysOf] at ih ⊢
        exact ih

lemma keysOf_dInsert_of_hasKey {α : Type} {k : Nat} {d : List (Nat × α)} (v : α)
    (h : hasKey k d = true) : keysOf (dInsert k v d) = keysOf d := by
  rw [dInsert, if_pos h]
  exact keysOf_dUpdate k v d

/-! ### Membership characterizations of the edge predicates -/

lemma memEdge_iff (g : Graph) (s t : Nat) :
    memEdge g s t = true ↔ ∃ p ∈ g, p.1 = s ∧ ∃ q ∈ p.2, q.1 = t := by
  simp [memEdge, List.any_eq_true, Bool.and_eq_true]

lemma hasEdgeW_iff (g : Graph) (s t : Nat) (w : ℚ) :
    hasEdgeW g s t w = true ↔ ∃ p ∈ g, p.1 = s ∧ ∃ q ∈ p.2, q.1 = t ∧ q.2 = w := by
  simp [hasEdgeW, List.any_eq_true, Bool.and_eq_true]

/-! ### Equation lemmas for the match-based definitions -/

lemma insertionCandidatesGo_cons {maxPer : Nat} {g : Graph} {node : Nat} {es : Edges}
    {rest : Graph} {cur : Edges} {l : List (Nat × Nat × ℚ)} (hcur : dlookup node g = some cur)
    (hrec : insertionCandidatesGo maxPer g rest = some l) :
    insertionCandidatesGo maxPer g ((node, es) :: rest) =
      if cur.length ≥ maxPer then some l
      else
        some ((es.filterMap fun q =>
          if hasKey q.1 cur then none else some (node, q.1, q.2)) ++ l) := by
  simp only [insertionCandidatesGo]
  rw [hcur, hrec]

lemma insertionCandidatesGo_cons_rec_none {maxPer : Nat} {g : Graph} {node : Nat} {es : Edges}
    {rest : Graph} {cur : Edges} (hcur : dlookup node g = some cur)
    (hrec : insertionCandidatesGo maxPer g rest = none) :
    insertionCandidatesGo maxPer g ((node, es) :: rest) = none := by
  simp only [insertionCandidatesGo]
  rw [hcur, hrec]

lemma insertionCandidatesGo_cons_none {maxPer : Nat} {g : Graph} {node : Nat} {es : Edges}
    {rest : Graph} (hcur : dlookup node g = none) :
    insertionCandidatesGo maxPer g ((node, es) :: rest) = none := by
  simp only [insertionCandidatesGo]
  rw [hcur]

lemma swap_eq_none {init : Graph} {maxPer c1 c2 : Nat} {g : Graph}
    (h : removalCandidatesGo init g = none) :
    swap_single_edge init maxPer c1 c2 g = none := by
  simp only [swap_single_edge]
  rw [h]

lemma swap_eq_some {init : Graph} {maxPer c1 c2 : Nat} {g : Graph}
    {removable : List (Nat × Nat)} (h : removalCandidatesGo init g = some removable) :
    swap_single_edge init maxPer c1 c2 g =
      if removable.isEmpty then some g
      else
        insertPhase init maxPer c2
          (dInsert (removable.getD (c1 % removable.length) (0, 0)).1
            (dErase (removable.getD (c1 % removable.length) (0, 0)).2
              ((dlookup (removable.getD (c1 % removable.length) (0, 0)).1 g).getD []))
            g) := by
  simp only [swap_single_edge]
  rw [h]

lemma insertPhase_eq_none {init : Graph} {maxPer c2 : Nat} {g1 : Graph}
    (h : insertionCandidatesGo maxPer g1 init = none) :
    insertPhase init maxPer c2 g1 = none := by
  simp only [insertPhase]
  rw [h]

lemma insertPhase_eq_some {init : Graph} {maxPer c2 : Nat} {g1 : Graph}
    {possible : List (Nat × Nat × ℚ)} (h : insertionCandidatesGo maxPer g1 init = some possible) :
    insertPhase init maxPer c2 g1 =
      if possible.isEmpty then some g1
      else
        some (dInsert (possible.getD (c2 % possible.length) (0, 0, 0)).1
          (dInsert (possible.getD (c2 % possible.length) (0, 0, 0)).2.1
            (possible.getD (c2 % possible.length) (0, 0, 0)).2.2
            ((dlookup (possible.getD (c2 % possible.length) (0, 0, 0)).1 g1).getD []))
          g1) := by
  simp only [insertPhase]
  rw [h]

lemma modify_loop_succ_swap_none {numNodes : Nat} {init : Graph} {maxPer maxTotal : Nat}
    {gOrig : Graph} {k : Nat} {cs : List (Nat × Nat)} {gNew : Graph}
    (h : swap_single_edge init maxPer (cs.headD (0, 0)).1 (cs.headD (0, 0)).2 gNew = none) :
    modify_loop numNodes init maxPer maxTotal gOrig (k + 1) cs gNew = none := by
  simp only [modify_loop]
  rw [h]

lemma modify_loop_succ_swap_some {numNodes : Nat} {init : Graph} {maxPer maxTotal : Nat}
    {gOrig : Graph} {k : Nat} {cs : List (Nat × Nat)} {gNew g2 : Graph}
    (h : swap_single_edge init maxPer (cs.headD (0, 0)).1 (cs.headD (0, 0)).2 gNew = some g2) :
    modify_loop numNodes init maxPer maxTotal gOrig (k + 1) cs gNew =
      match verify_constraints numNodes g2 maxPer maxTotal with
      | none => none
      | some false => some gOrig
      | some true => modify_loop numNodes init maxPer maxTotal gOrig k cs.tail g2 := by
  simp only [modify_loop]
  rw [h]

/-! ### Candidate-collection lemmas -/

lemma memEdge_cons_mono {p : Nat × Edges} {rest : Graph} {s t : Nat}
    (h : memEdge rest s t = true) : memEdge (p :: rest) s t = true := by
  rw [memEdge_iff] at h ⊢
  obtain ⟨q, hq, h1, h2⟩ := h
  exact ⟨q, List.mem_cons_of_mem _ hq, h1, h2⟩

lemma memEdge_head {node : Nat} {es : Edges} {rest : Graph} {q : Nat × ℚ} (hq : q ∈ es) :
    memEdge ((node, es) :: rest) node q.1 = true := by
  rw [memEdge_iff]
  exact ⟨(node, es), List.mem_cons_self _ _, rfl, q, hq, rfl⟩

lemma mem_memEdge {g : Graph} {p : Nat × Edges} {q : Nat × ℚ} (hp : p ∈ g) (hq : q ∈ p.2) :
    memEdge g p.1 q.1 = true := by
  rw [memEdge_iff]
  exact ⟨p, hp, rfl, q, hq, rfl⟩

lemma removalCandidatesGo_isSome (init : Graph) (g : Graph)
    (hsub : ∀ s t, memEdge g s t = true → memEdge init s t = true) :
    (removalCandidatesGo init g).isSome := by
  induction g with
  | nil => simp [removalCandidatesGo]
  | cons p rest ih =>
    cases p with
    | mk node es =>
      have hrest : ∀ s t, memEdge rest s t = true → memEdge init s t = true :=
        fun s t h => hsub s t (memEdge_cons_mono h)
      simp only [removalCandidatesGo]
      by_cases hlen : es.length > 1
      · rw [if_pos hlen]
        have hall : es.all (fun q => memEdge init node q.1) = true := by
          rw [List.all_eq_true]
          intro q hq
          exact hsub node q.1 (memEdge_head hq)
        rw [if_pos hall]
        rcases Option.isSome_iff_exists.mp (ih hrest) with ⟨l, hl⟩
        rw [hl]
        rfl
      · rw [if_neg hlen]
        exact ih hrest

lemma removalCandidatesGo_sound (init : Graph) :
    ∀ (g : Graph) (l : List (Nat × Nat)), removalCandidatesGo init g = some l →
      ∀ c ∈ l, ∃ p ∈ g, p.1 = c.1 := by
  intro g
  induction g with
  | nil =>
    intro l hl c hc
    have h2 : (some [] : Option (List (Nat × Nat))) = some l := hl
    injection h2 with h2
    subst h2
    cases hc
  | cons p rest ih =>
    intro l hl c hc
    cases p with
    | mk node es =>
      simp only [removalCandidatesGo] at hl
      by_cases hlen : es.length > 1
      · rw [if_pos hlen] at hl
        by_cases hall : es.all (fun q => memEdge init node q.1) = true
        · rw [if_pos hall] at hl
          rcases hrem : removalCandidatesGo init rest with _ | l'
          · rw [hrem] at hl; cases hl
          · rw [hrem] at hl
            simp only [Option.map_some'] at hl
            injection hl with hl
            subst hl
            rcases List.mem_append.mp hc with hc | hc
            · rcases List.mem_map.mp hc with ⟨q, hq, rfl⟩
              exact ⟨(node, es), List.mem_cons_self _ _, rfl⟩
            · obtain ⟨p, hp, h1⟩ := ih l' hrem c hc
              exact ⟨p, List.mem_cons_of_mem _ hp, h1⟩
        · rw [if_neg hall] at hl; cases hl
      · rw [if_neg hlen] at hl
        obtain ⟨p, hp, h1⟩ := ih l hl c hc
        exact ⟨p, List.mem_cons_of_mem _ hp, h1⟩

lemma insertionCandidatesGo_isSome (maxPer : Nat) (g : Graph) (rest : Graph)
    (hk : ∀ p ∈ rest, hasKey p.1 g = true) :
    (insertionCandidatesGo maxPer g rest).isSome := by
  induction rest with
  | nil => simp [insertionCandidatesGo]
  | cons p rest ih =>
    cases p with
    | mk node es =>
      have hnode : hasKey node g = true := hk (node, es) (List.mem_cons_self _ _)
      rcases Option.isSome_iff_exists.mp
        ((hasKey_iff_dlookup_isSome node g).mp hnode) with ⟨cur, hcur⟩
      have ihh := ih fun p hp => hk p (List.mem_cons_of_mem _ hp)
      rcases Option.isSome_iff_exists.mp ihh with ⟨l, hl⟩
      rw [insertionCandidatesGo_cons hcur hl]
      by_cases hle : cur.length ≥ maxPer
      · rw [if_pos hle]; rfl
      · rw [if_neg hle]; rfl

lemma insertionCandidatesGo_sound (maxPer : Nat) (g : Graph) :
    ∀ (rest : Graph) (l : List (Nat × Nat × ℚ)), insertionCandidatesGo maxPer g rest = some l →
      ∀ c ∈ l, (dlookup c.1 g).isSome ∧ ∃ p ∈ rest, p.1 = c.1 ∧ (c.2.1, c.2.2) ∈ p.2 := by
  intro rest
  induction rest with
  | nil =>
    intro l hl c hc
    have h2 : (some [] : Option (List (Nat × Nat × ℚ))) = some l := hl
    injection h2 with h2
    subst h2
    cases hc
  | cons p rest ih =>
    intro l hl c hc
    cases p with
    | mk node es =>
      rcases hcur : dlookup node g with _ | cur
      · rw [insertionCandidatesGo_cons_none hcur] at hl; cases hl
      · rcases hrec : insertionCandidatesGo maxPer g rest with _ | l'
        · rw [insertionCandidatesGo_cons_rec_none hcur hrec] at hl; cases hl
        · rw [insertionCandidatesGo_cons hcur hrec] at hl
          by_cases hle : cur.length ≥ maxPer
          · rw [if_pos hle] at hl
            injection hl with hl
            subst hl
            obtain ⟨h1, p, hp, h2⟩ := ih l' hrec c hc
            exact ⟨h1, p, List.mem_cons_of_mem _ hp, h2⟩
          · rw [if_neg hle] at hl
            injection hl with hl
            subst hl
            rcases List.mem_append.mp hc with hc | hc
            · rcases List.mem_filterMap.mp hc with ⟨q, hq, hfq⟩
              by_cases hhk : hasKey q.1 cur
              · rw [if_pos hhk] at hfq; cases hfq
              · rw [if_neg hhk] at hfq
                injection hfq with hfq
                subst hfq
                refine ⟨by rw [hcur]; rfl, (node, es), List.mem_cons_self _ _, rfl, ?_⟩
                simpa using hq
            · obtain ⟨h1, p, hp, h2⟩ := ih l' hrec c hc
              exact ⟨h1, p, List.mem_cons_of_mem _ hp, h2⟩

/-! ### Effect of the removal and insertion steps on the edge relation -/

lemma mem_hasEdgeW {g : Graph} {p : Nat × Edges} {q : Nat × ℚ} (hp : p ∈ g) (hq : q ∈ p.2) :
    hasEdgeW g p.1 q.1 q.2 = true := by
  rw [hasEdgeW_iff]
  exact ⟨p, hp, rfl, q, hq, rfl, rfl⟩

lemma memEdge_g1_imp {g : Graph} {src tgt s t : Nat}
    (h : memEdge (dInsert src (dErase tgt ((dlookup src g).getD [])) g) s t = true) :
    memEdge g s t = true := by
  rw [memEdge_iff] at h
  obtain ⟨p, hp, hps, q, hq, hqt⟩ := h
  rcases mem_dInsert_elim hp with rfl | ⟨hp1, _⟩
  · rcases hlk : dlookup src g with _ | es
    · rw [hlk] at hq; cases hq
    · rw [hlk] at hq
      have hq' : q ∈ es := mem_dErase_imp hq
      have := mem_memEdge (dlookup_mem hlk) hq'
      simp only at this hps
      rw [← hps, ← hqt]
      exact this
  · rw [← hps, ← hqt]
    exact mem_memEdge hp1 hq

lemma hasEdgeW_g1_imp {g : Graph} {src tgt s t : Nat} {w : ℚ}
    (h : hasEdgeW (dInsert src (dErase tgt ((dlookup src g).getD [])) g) s t w = true) :
    hasEdgeW g s t w = true := by
  rw [hasEdgeW_iff] at h
  obtain ⟨p, hp, hps, q, hq, hqt, hqw⟩ := h
  rcases mem_dInsert_elim hp with rfl | ⟨hp1, _⟩
  · rcases hlk : dlookup src g with _ | es
    · rw [hlk] at hq; cases hq
    · rw [hlk] at hq
      have hq' : q ∈ es := mem_dErase_imp hq
      have := mem_hasEdgeW (dlookup_mem hlk) hq'
      simp only at this hps
      rw [← hps, ← hqt, ← hqw]
      exact this
  · rw [← hps, ← hqt, ← hqw]
    exact mem_hasEdgeW hp1 hq

lemma memEdge_insert_elim {g1 : Graph} {a t2 s t : Nat} {w2 : ℚ}
    (h : memEdge (dInsert a (dInsert t2 w2 ((dlookup a g1).getD [])) g1) s t = true) :
    (s = a ∧ t = t2) ∨ memEdge g1 s t = true := by
  rw [memEdge_iff] at h
  obtain ⟨p, hp, hps, q, hq, hqt⟩ := h
  rcases mem_dInsert_elim hp with rfl | ⟨hp1, _⟩
  · simp only at hps hq
    rcases mem_dInsert_elim hq with rfl | ⟨hq1, _⟩
    · exact Or.inl ⟨hps.symm, hqt.symm⟩
    · rcases hlk : dlookup a g1 with _ | es
      · rw [hlk] at hq1; cases hq1
      · rw [hlk] at hq1
        have := mem_memEdge (dlookup_mem hlk) hq1
        simp only at this
        rw [← hps, ← hqt]
        exact Or.inr this
  · rw [← hps, ← hqt]
    exact Or.inr (mem_memEdge hp1 hq)

lemma hasEdgeW_insert_elim {g1 : Graph} {a t2 s t : Nat} {w w2 : ℚ}
    (h : hasEdgeW (dInsert a (dInsert t2 w2 ((dlookup a g1).getD [])) g1) s t w = true) :
    (s = a ∧ t = t2 ∧ w = w2) ∨ hasEdgeW g1 s t w = true := by
  rw [hasEdgeW_iff] at h
  obtain ⟨p, hp, hps, q, hq, hqt, hqw⟩ := h
  rcases mem_dInsert_elim hp with rfl | ⟨hp1, _⟩
  · simp only at hps hq
    rcases mem_dInsert_elim hq with rfl | ⟨hq1, _⟩
    · exact Or.inl ⟨hps.symm, hqt.symm, hqw.symm⟩
    · rcases hlk : dlookup a g1 with _ | es
      · rw [hlk] at hq1; cases hq1
      · rw [hlk] at hq1
        have := mem_hasEdgeW (dlookup_mem hlk) hq1
        simp only at this
        rw [← hps, ← hqt, ← hqw]
        exact Or.inr this
  · rw [← hps, ← hqt, ← hqw]
    exact Or.inr (mem_hasEdgeW hp1 hq)

/-! ### Swap-level invariants -/

lemma keysOf_ne_nil {g : Graph} (hg : g ≠ []) : keysOf g ≠ [] := by
  cases g with
  | nil => exact absurd rfl hg
  | cons p rest => simp [keysOf]

lemma ne_nil_of_keysOf_eq {g g' : Graph} (h : keysOf g' = keysOf g) (hg : g ≠ []) : g' ≠ [] := by
  intro hnil
  subst hnil
  exact keysOf_ne_nil hg h.symm

lemma swap_sub_init {init : Graph} {maxPer c1 c2 : Nat} {g g' : Graph}
    (hsub : ∀ s t, memEdge g s t = true → memEdge init s t = true)
    (h : swap_single_edge init maxPer c1 c2 g = some g') :
    ∀ s t, memEdge g' s t = true → memEdge init s t = true := by
  rcases hrem : removalCandidatesGo init g with _ | removable
  · rw [swap_eq_none hrem] at h; cases h
  · rw [swap_eq_some hrem] at h
    by_cases hre : removable.isEmpty
    · rw [if_pos hre] at h
      injection h with h
      subst h
      exact hsub
    · rw [if_neg hre] at h
      have hsub1 : ∀ s t,
          memEdge (dInsert (removable.getD (c1 % removable.length) (0, 0)).1
            (dErase (removable.getD (c1 % removable.length) (0, 0)).2
              ((dlookup (removable.getD (c1 % removable.length) (0, 0)).1 g).getD []))
            g) s t = true → memEdge init s t = true :=
        fun s t hm => hsub s t (memEdge_g1_imp hm)
      rcases hins : insertionCandidatesGo maxPer _ init with _ | possible
      · rw [insertPhase_eq_none hins] at h; cases h
      · rw [insertPhase_eq_some hins] at h
        by_cases hpe : possible.isEmpty
        · rw [if_pos hpe] at h
          injection h with h
          subst h
          exact hsub1
        · rw [if_neg hpe] at h
          injection h with h
          subst h
          intro s t ht
          rcases memEdge_insert_elim ht with ⟨rfl, rfl⟩ | ht'
          · have hlen : c2 % possible.length < possible.length :=
              Nat.mod_lt _ (List.length_pos.mpr (by simpa [List.isEmpty_iff] using hpe))
            have hcmem := getD_mem possible (c2 % possible.length) (0, 0, 0) hlen
            obtain ⟨_, p, hp, h1, h2⟩ :=
              insertionCandidatesGo_sound maxPer _ init possible hins _ hcmem
            have := mem_memEdge hp h2
            rw [h1] at this
            exact this
          · exact hsub1 s t ht'

lemma swap_weights {init : Graph} {maxPer c1 c2 : Nat} {g g' : Graph}
    (h : swap_single_edge init maxPer c1 c2 g = some g') :
    ∀ s t w, hasEdgeW g' s t w = true →
      hasEdgeW g s t w = true ∨ hasEdgeW init s t w = true := by
  rcases hrem : removalCandidatesGo init g with _ | removable
  · rw [swap_eq_none hrem] at h; cases h
  · rw [swap_eq_some hrem] at h
    by_cases hre : removable.isEmpty
    · rw [if_pos hre] at h
      injection h with h
      subst h
      exact fun s t w hw => Or.inl hw
    · rw [if_neg hre] at h
      rcases hins : insertionCandidatesGo maxPer _ init with _ | possible
      · rw [insertPhase_eq_none hins] at h; cases h
      · rw [insertPhase_eq_some hins] at h
        by_cases hpe : possible.isEmpty
        · rw [if_pos hpe] at h
          injection h with h
          subst h
          exact fun s t w hw => Or.inl (hasEdgeW_g1_imp hw)
        · rw [if_neg hpe] at h
          injection h with h
          subst h
          intro s t w hw
          rcases hasEdgeW_insert_elim hw with ⟨rfl, rfl, rfl⟩ | hw'
          · have hlen : c2 % possible.length < possible.length :=
              Nat.mod_lt _ (List.length_pos.mpr (by simpa [List.isEmpty_iff] using hpe))
            have hcmem := getD_mem possible (c2 % possible.length) (0, 0, 0) hlen
            obtain ⟨_, p, hp, h1, h2⟩ :=
              insertionCandidatesGo_sound maxPer _ init possible hins _ hcmem
            have := mem_hasEdgeW hp h2
            rw [h1] at this
            exact Or.inr this
          · exact Or.inl (hasEdgeW_g1_imp hw')

lemma swap_keysOf {init : Graph} {maxPer c1 c2 : Nat} {g g' : Graph}
    (h : swap_single_edge init maxPer c1 c2 g = some g') : keysOf g' = keysOf g := by
  rcases hrem : removalCandidatesGo init g with _ | removable
  · rw [swap_eq_none hrem] at h; cases h
  · rw [swap_eq_some hrem] at h
    by_cases hre : removable.isEmpty
    · rw [if_pos hre] at h
      injection h with h
      subst h
      rfl
    · rw [if_neg hre] at h
      have hlen1 : c1 % removable.length < removable.length :=
        Nat.mod_lt _ (List.length_pos.mpr (by simpa [List.isEmpty_iff] using hre))
      obtain ⟨p, hp, hp1⟩ := removalCandidatesGo_sound init g removable hrem _
        (getD_mem removable (c1 % removable.length) (0, 0) hlen1)
      have hkc : hasKey (removable.getD (c1 % removable.length) (0, 0)).1 g = true := by
        rw [← hp1]; exact hasKey_of_mem hp
      have hkeys1 : keysOf (dInsert (removable.getD (c1 % removable.length) (0, 0)).1
          (dErase (removable.getD (c1 % removable.length) (0, 0)).2
            ((dlookup (removable.getD (c1 % removable.length) (0, 0)).1 g).getD []))
          g) = keysOf g := keysOf_dInsert_of_hasKey _ hkc
      rcases hins : insertionCandidatesGo maxPer _ init with _ | possible
      · rw [insertPhase_eq_none hins] at h; cases h
      · rw [insertPhase_eq_some hins] at h
        by_cases hpe : possible.isEmpty
        · rw [if_pos hpe] at h
          injection h with h
          subst h
          exact hkeys1
        · rw [if_neg hpe] at h
          injection h with h
          subst h
          have hlen2 : c2 % possible.length < possible.length :=
            Nat.mod_lt _ (List.length_pos.mpr (by simpa [List.isEmpty_iff] using hpe))
          obtain ⟨hlk, _, _, _, _⟩ :=
            insertionCandidatesGo_sound maxPer _ init possible hins _
              (getD_mem possible (c2 % possible.length) (0, 0, 0) hlen2)
          have hk2 := (hasKey_iff_dlookup_isSome _ _).mpr hlk
          rw [keysOf_dInsert_of_hasKey _ hk2]
          exact hkeys1

lemma swap_isSome {init : Graph} {maxPer : Nat} (c1 c2 : Nat) {g : Graph}
    (hsub : ∀ s t, memEdge g s t = true → memEdge init s t = true)
    (hkeys : ∀ p ∈ init, hasKey p.1 g = true) :
    (swap_single_edge init maxPer c1 c2 g).isSome := by
  rcases Option.isSome_iff_exists.mp (removalCandidatesGo_isSome init g hsub)
    with ⟨removable, hrem⟩
  rw [swap_eq_some hrem]
  by_cases hre : removable.isEmpty
  · rw [if_pos hre]; rfl
  · rw [if_neg hre]
    have hlen1 : c1 % removable.length < removable.length :=
      Nat.mod_lt _ (List.length_pos.mpr (by simpa [List.isEmpty_iff] using hre))
    obtain ⟨p, hp, hp1⟩ := removalCandidatesGo_sound init g removable hrem _
      (getD_mem removable (c1 % removable.length) (0, 0) hlen1)
    have hkc : hasKey (removable.getD (c1 % removable.length) (0, 0)).1 g = true := by
      rw [← hp1]; exact hasKey_of_mem hp
    have hkeys1 : keysOf (dInsert (removable.getD (c1 % removable.length) (0, 0)).1
        (dErase (removable.getD (c1 % removable.length) (0, 0)).2
          ((dlookup (removable.getD (c1 % removable.length) (0, 0)).1 g).getD []))
        g) = keysOf g := keysOf_dInsert_of_hasKey _ hkc
    have hkeys2 : ∀ p ∈ init, hasKey p.1 (dInsert (removable.getD (c1 % removable.length) (0, 0)).1
        (dErase (removable.getD (c1 % removable.length) (0, 0)).2
          ((dlookup (removable.getD (c1 % removable.length) (0, 0)).1 g).getD []))
        g) = true := by
      intro p hp
      rw [hasKey_congr hkeys1 p.1]
      exact hkeys p hp
    rcases Option.isSome_iff_exists.mp (insertionCandidatesGo_isSome maxPer _ init hkeys2)
      with ⟨possible, hins⟩
    rw [insertPhase_eq_some hins]
    by_cases hpe : possible.isEmpty
    · rw [if_pos hpe]; rfl
    · rw [if_neg hpe]; rfl

/-! ### C4: the single-swap operator only re-selects initial edges -/

/-- Claim C4: starting from a graph all of whose edges are edges of the
original (pre-optimization) graph, every edge of a graph returned by
`swap_single_edge` is again an edge of the original graph, and every edge
of the result either already occurred in the input with its weight or
carries its original weight from the initial graph — the operator never
introduces an edge that did not exist in the original graph. -/
theorem C4_swap_never_invents_edges (init : Graph) (maxPer c1 c2 : Nat) (g g' : Graph)
    (hsub : ∀ s t, memEdge g s t = true → memEdge init s t = true)
    (h : swap_single_edge init maxPer c1 c2 g = some g') :
    (∀ s t, memEdge g' s t = true → memEdge init s t = true) ∧
    (∀ s t w, hasEdgeW g' s t w = true →
      hasEdgeW g s t w = true ∨ hasEdgeW init s t w = true) :=
  ⟨swap_sub_init hsub h, swap_weights h⟩

theorem C4_swap_never_invents_edges_witness :
    (∀ s t, memEdge gW s t = true → memEdge gW s t = true) ∧
    (∀ s t w, hasEdgeW gW s t w = true →
      hasEdgeW gW s t w = true ∨ hasEdgeW gW s t w = true) :=
  C4_swap_never_invents_edges gW 1 0 0 gW gW (fun _ _ h => h) (by decide)

/-! ### C2: all-or-nothing batch perturbation -/

lemma modify_loop_sound (numNodes : Nat) (init : Graph) (maxPer maxTotal : Nat) (gOrig : Graph) :
    ∀ (k : Nat) (cs : List (Nat × Nat)) (gNew : Graph),
      (∀ s t, memEdge gNew s t = true → memEdge init s t = true) →
      (∀ p ∈ init, hasKey p.1 gNew = true) →
      gNew ≠ [] →
      ∃ g', modify_loop numNodes init maxPer maxTotal gOrig k cs gNew = some g' ∧
        (g' = gOrig ∨ g' = gNew ∨
          verify_constraints numNodes g' maxPer maxTotal = some true) := by
  intro k
  induction k with
  | zero =>
    intro cs gNew _ _ _
    exact ⟨gNew, rfl, Or.inr (Or.inl rfl)⟩
  | succ k ih =>
    intro cs gNew hsub hkeys hne
    rcases Option.isSome_iff_exists.mp
      (swap_isSome (cs.headD (0, 0)).1 (cs.headD (0, 0)).2 hsub hkeys)
      with ⟨g2, hswap⟩
    have hsub2 := swap_sub_init hsub hswap
    have hkeyeq := swap_keysOf hswap
    have hkeys2 : ∀ p ∈ init, hasKey p.1 g2 = true := by
      intro p hp
      rw [hasKey_congr hkeyeq p.1]
      exact hkeys p hp
    have hne2 : g2 ≠ [] := ne_nil_of_keysOf_eq hkeyeq hne
    rw [modify_loop_succ_swap_some hswap]
    rcases hv : verify_constraints numNodes g2 maxPer maxTotal with _ | b
    · have := verify_isSome numNodes g2 maxPer maxTotal hne2
      rw [hv] at this
      cases this
    · cases b
      · exact ⟨gOrig, rfl, Or.inl rfl⟩
      · obtain ⟨g', hg', hcase⟩ := ih cs.tail g2 hsub2 hkeys2 hne2
        refine ⟨g', hg', ?_⟩
        rcases hcase with rfl | rfl | hvv
        · exact Or.inl rfl
        · exact Or.inr (Or.inr hv)
        · exact Or.inr (Or.inr hvv)

/-- Claim C2 (amended): `modify_graph`, applied to a graph that passes the
verifier, whose edges all occur in the initial reference graph, and whose
node set includes every node of the initial graph, completes without an
exception and returns either a graph accepted by `verify_constraints` or
the unchanged input graph — whenever any intermediate swap violates the
constraints the whole batch is abandoned and the input returned. -/
theorem C2_modify_valid_or_input (numNodes : Nat) (init : Graph)
    (maxPer maxTotal numSwaps : Nat) (cs : List (Nat × Nat)) (g : Graph)
    (hval : verify_constraints numNodes g maxPer maxTotal = some true)
    (hsub : ∀ s t, memEdge g s t = true → memEdge init s t = true)
    (hkeys : ∀ p ∈ init, hasKey p.1 g = true) :
    ∃ g', modify_graph numNodes init maxPer maxTotal numSwaps cs g = some g' ∧
      (verify_constraints numNodes g' maxPer maxTotal = some true ∨ g' = g) := by
  obtain ⟨g', h1, h2⟩ := modify_loop_sound numNodes init maxPer maxTotal g numSwaps cs g
    hsub hkeys (ne_nil_of_verify_true hval)
  refine ⟨g', h1, ?_⟩
  rcases h2 with rfl | rfl | hv
  · exact Or.inr rfl
  · exact Or.inr rfl
  · exact Or.inl hv

theorem C2_modify_valid_or_input_witness :
    ∃ g', modify_graph 2 gW 1 2 10 [] gW = some g' ∧
      (verify_constraints 2 g' 1 2 = some true ∨ g' = gW) :=
  C2_modify_valid_or_input 2 gW 1 2 10 [] gW (by decide) (fun _ _ h => h)
    (fun p hp => hasKey_of_mem hp)

/-- Claim C2, as stated, is false: on this valid input graph (accepted by
the verifier) whose edges do not occur in the initial graph,
`modify_graph` raises a `KeyError` on `edge_weight_dict` (embedded as
`none`) instead of returning a valid graph or the input unchanged. -/
theorem C2_counterexample :
    verify_constraints 1 gC2 5 10 = some true ∧
      modify_graph 1 initC2 5 10 10 [] gC2 = none := by
  constructor
  · decide
  · decide

end BogoDB
